import Mathlib

set_option maxHeartbeats 1000000
set_option maxRecDepth 8000

/-!
Verification of the fastcoref dataset-preparation module
(`fastcoref/utilities/coref_dataset.py`): speaker augmentation,
subword-span realignment, preprocessing normalization, and the
batch cache.  Python lists become Lean `List`s, Python `None`
becomes `Option.none`, raised exceptions become `Except` errors.
-/

namespace CorefDataset

/-- Modelled from the spec: `consts.SPEAKER_START` is the literal marker string
inserted before a speaker id at each speaker-run boundary (the file
`utilities/consts.py` is not part of the sources; the spec fixes only that it
is a distinguished marker token, not its spelling). -/
def SPEAKER_START : String := "[SPEAKER_START]"

/-- Modelled from the spec: `consts.SPEAKER_END` is the literal marker string
inserted after a speaker id at each speaker-run boundary. -/
def SPEAKER_END : String := "[SPEAKER_END]"

/-- Loop state of `add_speaker_information`: the three lists being built and
the `last_speaker` variable (`none` models Python `None`). -/
structure ASIState where
  new_tokens : List String
  token_to_new_token_map : List Nat
  new_token_to_token_map : List (Option Nat)
  last_speaker : Option String

/-- One iteration of the `for idx, (token, speaker) in enumerate(zip(...))`
loop body of `add_speaker_information`. -/
def asiStep (st : ASIState) (idx : Nat) (token speaker : String) : ASIState :=
  let st1 :=
    if st.last_speaker ≠ some speaker then
      { st with
        new_tokens := st.new_tokens ++ [SPEAKER_START, speaker, SPEAKER_END],
        new_token_to_token_map := st.new_token_to_token_map ++ [none, none, none],
        last_speaker := some speaker }
    else st
  { st1 with
    token_to_new_token_map := st1.token_to_new_token_map ++ [st1.new_tokens.length],
    new_token_to_token_map := st1.new_token_to_token_map ++ [some idx],
    new_tokens := st1.new_tokens ++ [token] }

/-- The whole loop of `add_speaker_information`, over the zipped
(token, speaker) pairs, threading the enumeration index. -/
def asiLoop : List (String × String) → Nat → ASIState → ASIState
  | [], _, st => st
  | (tok, spk) :: rest, idx, st => asiLoop rest (idx + 1) (asiStep st idx tok spk)

/-- `add_speaker_information(tokens, speakers)` from
`utilities/coref_dataset.py`: returns
`(new_tokens, token_to_new_token_map, new_token_to_token_map)`. -/
def add_speaker_information (tokens speakers : List String) :
    List String × List Nat × List (Option Nat) :=
  let st := asiLoop (tokens.zip speakers) 0 ⟨[], [], [], none⟩
  (st.new_tokens, st.token_to_new_token_map, st.new_token_to_token_map)

/-- Number of speaker-change boundaries: positions whose speaker differs from
the previous position's speaker, the first argument being the speaker "before"
the list (`none` at the start, so position 0 always counts). -/
def boundaryCount : Option String → List String → Nat
  | _, [] => 0
  | last, s :: rest => (if last ≠ some s then 1 else 0) + boundaryCount (some s) rest

/-- Closed form of the augmented token list built by the loop, given the
incoming `last_speaker` value. -/
def augTokens (last : Option String) : List (String × String) → List String
  | [] => []
  | (t, s) :: rest =>
    if last ≠ some s then
      SPEAKER_START :: s :: SPEAKER_END :: t :: augTokens (some s) rest
    else
      t :: augTokens (some s) rest

/-- Closed form of the forward map (`token_to_new_token_map`) built by the
loop, `base` being the length of the augmented list built so far. -/
def augF (last : Option String) (base : Nat) : List (String × String) → List Nat
  | [] => []
  | (_, s) :: rest =>
    if last ≠ some s then (base + 3) :: augF (some s) (base + 4) rest
    else base :: augF (some s) (base + 1) rest

/-- Closed form of the backward map (`new_token_to_token_map`) built by the
loop, `idx` being the enumeration index of the first remaining pair. -/
def augB (last : Option String) (idx : Nat) : List (String × String) → List (Option Nat)
  | [] => []
  | (_, s) :: rest =>
    if last ≠ some s then
      none :: none :: none :: some idx :: augB (some s) (idx + 1) rest
    else
      some idx :: augB (some s) (idx + 1) rest

/-- The value of `last_speaker` after consuming the list. -/
def lastSpk (last : Option String) : List (String × String) → Option String
  | [] => last
  | (_, s) :: rest => lastSpk (some s) rest

/-- Python slice `l[a:b]` for non-negative bounds (clamping past the end,
empty when `b ≤ a`, exactly as in Python). -/
def pySlice (l : List α) (a b : Nat) : List α := (l.drop a).take (b - a)

/-- Errors the `_tokenize` code can raise: `IndexError` from indexing
`token_to_new_token_map`, `AssertionError` from the slice assertion, and
`AttributeError` from `.start`/`.end` on a `None` result of
`word_to_tokens`. -/
inductive TokErr where
  | indexError
  | assertionError
  | attributeError
deriving DecidableEq

/-- One `assert tokens[start:end+1] == new_tokens[t2n[start]:t2n[end]+1]`
from the cluster loop of `_tokenize` (indexing errors included). -/
def assertSpan (tokens nt : List String) (t2n : List Nat) (se : Nat × Nat) :
    Except TokErr Unit :=
  if h1 : se.1 < t2n.length then
    if h2 : se.2 < t2n.length then
      if pySlice tokens se.1 (se.2 + 1) = pySlice nt t2n[se.1] (t2n[se.2] + 1) then
        .ok ()
      else .error .assertionError
    else .error .indexError
  else .error .indexError

/-- Result of the opaque subword tokenizer on a word sequence:
`input_ids`, the reported length, `word_to_tokens` (word index to half-open
subtoken range, `none` past the end), and `word_ids()`. -/
structure EncodedText where
  input_ids : List Nat
  length : Nat
  word_to_tokens : Nat → Option (Nat × Nat)
  word_ids : List (Option Nat)

/-- One span of the realignment comprehension of `_tokenize`:
`(word_to_tokens(t2n[start]).start, word_to_tokens(t2n[end]).end - 1)`. -/
def realignSpan (enc : EncodedText) (t2n : List Nat) (se : Nat × Nat) :
    Except TokErr (Nat × Nat) :=
  if h1 : se.1 < t2n.length then
    match enc.word_to_tokens t2n[se.1] with
    | none => .error .attributeError
    | some r1 =>
      if h2 : se.2 < t2n.length then
        match enc.word_to_tokens t2n[se.2] with
        | none => .error .attributeError
        | some r2 => .ok (r1.1, r2.2 - 1)
      else .error .indexError
  else .error .indexError

/-- The record returned by `_tokenize`. -/
structure EncodedExample where
  tokens : List String
  input_ids : List Nat
  length : Nat
  gold_clusters : List (List (Nat × Nat))
  new_token_map : List (Option Nat)
  subtoken_map : List (Option Nat)
deriving DecidableEq

/-- `_tokenize(tokenizer, tokens, clusters, speakers)` from
`utilities/coref_dataset.py`.  When `speakers` is empty the three-tuple is
`(tokens, [], [])` exactly as in the source; otherwise
`add_speaker_information` runs and every cluster span is checked by the
assertion before realignment. -/
def _tokenize (tokenizer : List String → EncodedText) (tokens : List String)
    (clusters : List (List (Nat × Nat))) (speakers : List String) :
    Except TokErr EncodedExample := do
  let (new_tokens, token_to_new_token_map, new_token_to_token_map) :=
    if speakers.isEmpty then (tokens, ([] : List Nat), ([] : List (Option Nat)))
    else add_speaker_information tokens speakers
  if !speakers.isEmpty then
    clusters.forM fun cluster =>
      cluster.forM fun se => assertSpan tokens new_tokens token_to_new_token_map se
  let encoded_text := tokenizer new_tokens
  let new_clusters ← clusters.mapM fun cluster =>
    cluster.mapM fun se => realignSpan encoded_text token_to_new_token_map se
  return { tokens := tokens, input_ids := encoded_text.input_ids,
           length := encoded_text.length, gold_clusters := new_clusters,
           new_token_map := new_token_to_token_map,
           subtoken_map := encoded_text.word_ids }

/-- A concrete tokenizer used to evaluate the model at specific inputs: each
word becomes exactly one subword, with one special token on each side. -/
def unitTokenizer : List String → EncodedText := fun ws =>
  { input_ids := List.range (ws.length + 2),
    length := ws.length + 2,
    word_to_tokens := fun i => if i < ws.length then some (i + 1, i + 2) else none,
    word_ids := none :: ((List.range ws.length).map some ++ [none]) }

/-- Modelled from the spec: `util.flatten` (the file `utilities/util.py` is not
part of the sources) flattens a sentence-grouped list of lists into one list. -/
def flatten : List (List α) → List α
  | [] => []
  | x :: xs => x ++ flatten xs

/-- The speakers field of a prepared record: untouched in the token and text
branches, flattened in the sentences branch. -/
inductive SpeakersField where
  | untouched (l : List (List String))
  | flattened (l : List String)
deriving DecidableEq

/-- A raw record as seen by `prepare_for_encode`: a missing optional field and
a present-but-empty one behave identically under Python truthiness, so both
are the empty value here. -/
structure RawExample where
  tokens : List String
  sentences : List (List String)
  text : String
  speakers : List (List String)
deriving DecidableEq

/-- The record after `prepare_for_encode`. -/
structure PreparedExample where
  tokens : List String
  sentences : List (List String)
  text : String
  speakers : SpeakersField
deriving DecidableEq

/-- The `ValueError("Example is empty: ...")` of `prepare_for_encode`
(`MissingContentError` in the spec). -/
inductive PrepError where
  | missingContent
deriving DecidableEq

/-- `prepare_for_encode(example, nlp)` from `utilities/coref_dataset.py`:
tokens take priority, else flattened sentences (with flattened speakers),
else the sentence splitter `nlp` over the raw text, else an error. -/
def prepare_for_encode (nlp : String → List String) (e : RawExample) :
    Except PrepError PreparedExample :=
  if e.tokens ≠ [] then
    .ok { tokens := e.tokens, sentences := e.sentences, text := e.text,
          speakers := .untouched e.speakers }
  else if e.sentences ≠ [] then
    .ok { tokens := flatten e.sentences, sentences := e.sentences, text := e.text,
          speakers := .flattened (flatten e.speakers) }
  else if e.text ≠ "" then
    .ok { tokens := nlp e.text, sentences := e.sentences, text := e.text,
          speakers := .untouched e.speakers }
  else
    .error .missingContent

/-- The collator attached to a sampler.  Only its identity matters to
`create_batches`: the two supported classes (`LeftOversCollator`,
`PadCollator`, from the external `utilities/collate.py`) and anything else. -/
inductive Collator where
  | leftOvers
  | pad
  | other
deriving DecidableEq

/-- The literal discriminator string `create_batches` appends to the key for
each supported collator variant, `none` for an unsupported one. -/
def collatorSuffix : Collator → Option String
  | .leftOvers => some "_segment_collator"
  | .pad => some "_longformer_collator"
  | .other => none

/-- The pre-fingerprint key string: `Hasher.hash(dataset_files)` followed by
the collator discriminator. -/
def batchKey (hash : String → String) (dataset_files : String) (c : Collator) :
    Option String :=
  (collatorSuffix c).map fun suf => hash dataset_files ++ suf

/-- The cache path `os.path.join(cache_dir, Hasher.hash(key))`. -/
def cachePathOf (hash : String → String) (cache_dir dataset_files : String)
    (c : Collator) : Option String :=
  (batchKey hash dataset_files c).map fun key => cache_dir ++ "/" ++ hash key

/-- A sampler: its collator and the batches (field-name/value mappings) that
iterating it yields, in order. -/
structure Sampler (V : Type) where
  collator : Collator
  batches : List (List (String × V))

/-- Outcome of `datasets.load_from_disk`: a stored collection, the
`FileNotFoundError` case, or any other persistence failure. -/
inductive LoadOutcome (V : Type) where
  | found (b : List (String × List V))
  | notFound
  | otherError (msg : String)

/-- The external capabilities `create_batches` uses: the deterministic
fingerprint `Hasher.hash` and the persistence load. -/
structure CacheEnv (V : Type) where
  hash : String → String
  load : String → LoadOutcome V

/-- Errors of `create_batches`: `NotImplementedError` for an unsupported
collator, and a propagated persistence failure. -/
inductive CBError where
  | unsupportedCollator
  | persistFailure (msg : String)
deriving DecidableEq

/-- Observable side effects of `create_batches`, in order: a load attempt,
driving the sampler to exhaustion, and a save. -/
inductive Effect (V : Type) where
  | load (path : String)
  | iterateSampler
  | save (path : String) (b : List (String × List V))

/-- `batches_dict[k].append(v)` on a `defaultdict(list)` kept as an ordered
association list (Python dicts preserve insertion order). -/
def dictAppend {V : Type} : List (String × List V) → String → V → List (String × List V)
  | [], k, v => [(k, [v])]
  | kv :: d, k, v =>
    if kv.1 = k then (kv.1, kv.2 ++ [v]) :: d else kv :: dictAppend d k v

/-- The batch-collection loop of `create_batches`: for each batch in order,
append each of its fields to the per-field list. -/
def collectBatches {V : Type} (bs : List (List (String × V))) : List (String × List V) :=
  bs.foldl (fun d b => b.foldl (fun d2 kv => dictAppend d2 kv.1 kv.2) d) []

/-- `create_batches(sampler, dataset_files, cache_dir)` from
`utilities/coref_dataset.py`, returning its result together with the ordered
trace of persistence/iteration effects it performed. -/
def create_batches {V : Type} (env : CacheEnv V) (sampler : Sampler V)
    (dataset_files : String) (cache_dir : String) :
    Except CBError (List (String × List V)) × List (Effect V) :=
  match batchKey env.hash dataset_files sampler.collator with
  | none => (.error .unsupportedCollator, [])
  | some key =>
    let cache_key := env.hash key
    let dataset_path := cache_dir ++ "/" ++ cache_key
    match env.load dataset_path with
    | .found batches => (.ok batches, [.load dataset_path])
    | .otherError msg => (.error (.persistFailure msg), [.load dataset_path])
    | .notFound =>
      let batches := collectBatches sampler.batches
      (.ok batches,
       [.load dataset_path, .iterateSampler, .save dataset_path batches])

/-- Reading a key out of the ordered association list (empty list when the
key was never appended, matching `defaultdict(list)`). -/
def dictGet {V : Type} : List (String × List V) → String → List V
  | [], _ => []
  | kv :: d, k => if kv.1 = k then kv.2 else dictGet d k

/-- The values carried for field `k` by a batch list, in batch order. -/
def fieldValues {V : Type} (k : String) : List (List (String × V)) → List V
  | [] => []
  | b :: bs =>
    (b.filterMap fun kv => if kv.1 = k then some kv.2 else none) ++ fieldValues k bs

/-- A concrete cache environment used to evaluate the model at specific
inputs: a constant fingerprint and a persistence layer with an empty disk. -/
def natCacheEnv : CacheEnv Nat :=
  { hash := fun _ => "h", load := fun _ => .notFound }

/-- A concrete sampler with the segment collator and two one-field batches. -/
def natSamplerLeftOvers : Sampler Nat :=
  { collator := .leftOvers, batches := [[("x", 1)], [("x", 2)]] }

/-- A concrete sampler whose collator is neither supported variant. -/
def natSamplerOther : Sampler Nat :=
  { collator := .other, batches := [[("x", 1)]] }

theorem asiLoop_eq (l : List (String × String)) :
    ∀ (idx : Nat) (st : ASIState),
      asiLoop l idx st =
        { new_tokens := st.new_tokens ++ augTokens st.last_speaker l,
          token_to_new_token_map :=
            st.token_to_new_token_map ++ augF st.last_speaker st.new_tokens.length l,
          new_token_to_token_map :=
            st.new_token_to_token_map ++ augB st.last_speaker idx l,
          last_speaker := lastSpk st.last_speaker l } := by
  induction l with
  | nil => intro idx st; simp [asiLoop, augTokens, augF, augB, lastSpk]
  | cons x rest ih =>
    intro idx st
    obtain ⟨tok, spk⟩ := x
    by_cases h : st.last_speaker = some spk
    · simp only [asiLoop, asiStep, h, ne_eq, not_true_eq_false, if_false, ite_false]
      rw [ih]
      simp [augTokens, augF, augB, lastSpk, h, List.append_assoc]
    · simp only [asiLoop, asiStep, ne_eq, h, not_false_eq_true, if_true, ite_true]
      rw [ih]
      simp [augTokens, augF, augB, lastSpk, h, List.append_assoc, List.length_append]

theorem add_speaker_information_eq (tokens speakers : List String) :
    add_speaker_information tokens speakers =
      (augTokens none (tokens.zip speakers),
       augF none 0 (tokens.zip speakers),
       augB none 0 (tokens.zip speakers)) := by
  unfold add_speaker_information
  rw [asiLoop_eq]
  simp

theorem augTokens_length (l : List (String × String)) :
    ∀ last : Option String,
      (augTokens last l).length = l.length + 3 * boundaryCount last (l.map Prod.snd) := by
  induction l with
  | nil => intro last; simp [augTokens, boundaryCount]
  | cons x rest ih =>
    intro last
    obtain ⟨t, s⟩ := x
    by_cases h : last = some s <;>
      simp [augTokens, boundaryCount, h, ih] <;> omega

theorem augF_length (l : List (String × String)) :
    ∀ (last : Option String) (base : Nat), (augF last base l).length = l.length := by
  induction l with
  | nil => intro last base; simp [augF]
  | cons x rest ih =>
    intro last base
    obtain ⟨t, s⟩ := x
    by_cases h : last = some s <;> simp [augF, h, ih]

theorem augB_length (l : List (String × String)) :
    ∀ (last : Option String) (idx : Nat),
      (augB last idx l).length = (augTokens last l).length := by
  induction l with
  | nil => intro last idx; simp [augB, augTokens]
  | cons x rest ih =>
    intro last idx
    obtain ⟨t, s⟩ := x
    by_cases h : last = some s <;> simp [augB, augTokens, h, ih]

theorem augF_inverse (l : List (String × String)) :
    ∀ (last : Option String) (base idx : Nat) (i p : Nat),
      (augF last base l)[i]? = some p →
      base ≤ p ∧ (augB last idx l)[p - base]? = some (some (idx + i)) := by
  induction l with
  | nil => intro last base idx i p hp; simp [augF] at hp
  | cons x rest ih =>
    intro last base idx i p hp
    obtain ⟨t, s⟩ := x
    by_cases h : last = some s
    · simp [augF, h] at hp
      match i with
      | 0 =>
        simp at hp
        subst hp
        simp [augB, h]
      | i + 1 =>
        simp at hp
        have := ih (some s) (base + 1) (idx + 1) i p hp
        obtain ⟨hbp, hres⟩ := this
        refine ⟨by omega, ?_⟩
        have hpos : p - base = (p - (base + 1)) + 1 := by omega
        rw [hpos]
        simp [augB, h]
        rw [show idx + (i + 1) = idx + 1 + i by omega]
        exact hres
    · simp [augF, h] at hp
      match i with
      | 0 =>
        simp at hp
        subst hp
        simp [augB, h]
      | i + 1 =>
        simp at hp
        have := ih (some s) (base + 4) (idx + 1) i p hp
        obtain ⟨hbp, hres⟩ := this
        refine ⟨by omega, ?_⟩
        have hpos : p - base = (p - (base + 4)) + 4 := by omega
        rw [hpos]
        simp [augB, h]
        rw [show idx + (i + 1) = idx + 1 + i by omega]
        exact hres

theorem augF_lower_bound (l : List (String × String)) :
    ∀ (last : Option String) (base : Nat) (p : Nat),
      p ∈ augF last base l → base ≤ p := by
  induction l with
  | nil => intro last base p hp; simp [augF] at hp
  | cons x rest ih =>
    intro last base p hp
    obtain ⟨t, s⟩ := x
    by_cases h : last = some s
    · simp [augF, h] at hp
      rcases hp with hp | hp
      · omega
      · have := ih (some s) (base + 1) p hp; omega
    · simp [augF, h] at hp
      rcases hp with hp | hp
      · omega
      · have := ih (some s) (base + 4) p hp; omega

theorem augF_upper_bound (l : List (String × String)) :
    ∀ (last : Option String) (base : Nat) (p : Nat),
      p ∈ augF last base l → p < base + (augTokens last l).length := by
  induction l with
  | nil => intro last base p hp; simp [augF] at hp
  | cons x rest ih =>
    intro last base p hp
    obtain ⟨t, s⟩ := x
    by_cases h : last = some s
    · simp [augF, h] at hp
      rcases hp with hp | hp
      · simp [augTokens, h]; omega
      · have := ih (some s) (base + 1) p hp
        simp [augTokens, h]
        omega
    · simp [augF, h] at hp
      rcases hp with hp | hp
      · simp [augTokens, h]; omega
      · have := ih (some s) (base + 4) p hp
        simp [augTokens, h]
        omega

theorem augF_pairwise (l : List (String × String)) :
    ∀ (last : Option String) (base : Nat),
      List.Pairwise (· < ·) (augF last base l) := by
  induction l with
  | nil => intro last base; simp [augF]
  | cons x rest ih =>
    intro last base
    obtain ⟨t, s⟩ := x
    by_cases h : last = some s
    · simp only [augF, h, ne_eq, not_true_eq_false, ite_false]
      refine List.Pairwise.cons ?_ (ih (some s) (base + 1))
      intro q hq
      have := augF_lower_bound rest (some s) (base + 1) q hq
      omega
    · simp only [augF, h, ne_eq, not_false_eq_true, ite_true]
      refine List.Pairwise.cons ?_ (ih (some s) (base + 4))
      intro q hq
      have := augF_lower_bound rest (some s) (base + 4) q hq
      omega

theorem augF_content (l : List (String × String)) :
    ∀ (last : Option String) (base : Nat) (i p : Nat),
      (augF last base l)[i]? = some p →
      (augTokens last l)[p - base]? = Option.map Prod.fst l[i]? := by
  induction l with
  | nil => intro last base i p hp; simp [augF] at hp
  | cons x rest ih =>
    intro last base i p hp
    obtain ⟨t, s⟩ := x
    by_cases h : last = some s
    · simp [augF, h] at hp
      match i with
      | 0 =>
        simp at hp
        subst hp
        simp [augTokens, h]
      | i + 1 =>
        simp at hp
        have hlow := augF_lower_bound rest (some s) (base + 1) p
          (List.mem_iff_getElem?.mpr ⟨i, hp⟩)
        have := ih (some s) (base + 1) i p hp
        have hpos : p - base = (p - (base + 1)) + 1 := by omega
        rw [hpos]
        simp only [augTokens, h, ne_eq, not_true_eq_false, ite_false,
          List.getElem?_cons_succ]
        exact this
    · simp [augF, h] at hp
      match i with
      | 0 =>
        simp at hp
        subst hp
        simp [augTokens, h]
      | i + 1 =>
        simp at hp
        have hlow := augF_lower_bound rest (some s) (base + 4) p
          (List.mem_iff_getElem?.mpr ⟨i, hp⟩)
        have := ih (some s) (base + 4) i p hp
        have hpos : p - base = (p - (base + 4)) + 4 := by omega
        rw [hpos]
        simp only [augTokens, h, ne_eq, not_false_eq_true, ite_true,
          List.getElem?_cons_succ]
        exact this

theorem augF_consecutive (l : List (String × String)) :
    ∀ (last : Option String) (base : Nat) (i p q : Nat),
      (augF last base l)[i]? = some p →
      (augF last base l)[i + 1]? = some q →
      (l.map Prod.snd)[i + 1]? = (l.map Prod.snd)[i]? →
      q = p + 1 := by
  induction l with
  | nil => intro last base i p q hp hq hs; simp [augF] at hp
  | cons x rest ih =>
    intro last base i p q hp hq hs
    obtain ⟨t, s⟩ := x
    match i with
    | 0 =>
      match rest with
      | [] => by_cases h : last = some s <;> simp [augF, h] at hq
      | (t2, s2) :: rest2 =>
        simp at hs
        by_cases h : last = some s
        · simp [augF, h, hs] at hp hq
          omega
        · simp [augF, h, hs] at hp hq
          omega
    | i + 1 =>
      have hs2 : (rest.map Prod.snd)[i + 1]? = (rest.map Prod.snd)[i]? := by
        simpa using hs
      by_cases h : last = some s
      · simp only [augF, h, ne_eq, not_true_eq_false, ite_false,
          List.getElem?_cons_succ] at hp hq
        exact ih (some s) (base + 1) i p q hp hq hs2
      · simp only [augF, h, ne_eq, not_false_eq_true, ite_true,
          List.getElem?_cons_succ] at hp hq
        exact ih (some s) (base + 4) i p q hp hq hs2

theorem augB_entry_bound (l : List (String × String)) :
    ∀ (last : Option String) (idx : Nat) (o : Option Nat),
      o ∈ augB last idx l → ∀ i : Nat, o = some i → idx ≤ i ∧ i < idx + l.length := by
  induction l with
  | nil => intro last idx o ho; simp [augB] at ho
  | cons x rest ih =>
    intro last idx o ho i hoi
    obtain ⟨t, s⟩ := x
    subst hoi
    by_cases h : last = some s
    · simp [augB, h] at ho
      rcases ho with ho | ho
      · subst ho; simp only [List.length_cons]; omega
      · have := ih (some s) (idx + 1) (some i) ho i rfl
        simp only [List.length_cons]
        omega
    · simp [augB, h] at ho
      rcases ho with ho | ho
      · subst ho; simp only [List.length_cons]; omega
      · have := ih (some s) (idx + 1) (some i) ho i rfl
        simp only [List.length_cons]
        omega

theorem dictGet_dictAppend {V : Type} (d : List (String × List V)) (k2 k : String)
    (v : V) :
    dictGet (dictAppend d k2 v) k =
      if k2 = k then dictGet d k ++ [v] else dictGet d k := by
  induction d with
  | nil => by_cases h : k2 = k <;> simp [dictAppend, dictGet, h]
  | cons kv d ih =>
    obtain ⟨k1, vs⟩ := kv
    by_cases h1 : k1 = k2
    · subst h1
      by_cases h2 : k1 = k <;> simp [dictAppend, dictGet, h2]
    · have hne : k1 ≠ k2 := h1
      by_cases h2 : k1 = k
      · subst h2
        have h3 : k2 ≠ k1 := fun hc => hne hc.symm
        simp [dictAppend, dictGet, hne, h3, ih]
      · by_cases h3 : k2 = k
        · subst h3
          simp [dictAppend, dictGet, hne, h2, ih]
        · simp [dictAppend, dictGet, hne, h2, h3, ih]

theorem dictGet_foldl_batch {V : Type} (b : List (String × V)) :
    ∀ (d : List (String × List V)) (k : String),
      dictGet (b.foldl (fun d2 kv => dictAppend d2 kv.1 kv.2) d) k =
        dictGet d k ++ (b.filterMap fun kv => if kv.1 = k then some kv.2 else none) := by
  induction b with
  | nil => intro d k; simp
  | cons kv b ih =>
    intro d k
    obtain ⟨k1, v⟩ := kv
    simp only [List.foldl_cons, List.filterMap_cons]
    rw [ih, dictGet_dictAppend]
    by_cases h : k1 = k <;> simp [h]

theorem dictGet_foldl_all {V : Type} (bs : List (List (String × V))) :
    ∀ (d : List (String × List V)) (k : String),
      dictGet (bs.foldl (fun d b => b.foldl (fun d2 kv => dictAppend d2 kv.1 kv.2) d) d) k =
        dictGet d k ++ fieldValues k bs := by
  induction bs with
  | nil => intro d k; simp [fieldValues]
  | cons b bs ih =>
    intro d k
    simp only [List.foldl_cons]
    rw [ih, dictGet_foldl_batch]
    simp [fieldValues]

theorem dictGet_collectBatches {V : Type} (bs : List (List (String × V))) (k : String) :
    dictGet (collectBatches bs) k = fieldValues k bs := by
  have h := dictGet_foldl_all bs [] k
  simpa [collectBatches, dictGet] using h

theorem pySlice_congr {α : Type} (l1 l2 : List α) (a1 a2 k : Nat)
    (h : ∀ j, j < k → l1[a1 + j]? = l2[a2 + j]?) :
    pySlice l1 a1 (a1 + k) = pySlice l2 a2 (a2 + k) := by
  apply List.ext_getElem?
  intro n
  unfold pySlice
  rw [Nat.add_sub_cancel_left, Nat.add_sub_cancel_left]
  by_cases hn : n < k
  · rw [List.getElem?_take_of_lt hn, List.getElem?_take_of_lt hn,
      List.getElem?_drop, List.getElem?_drop]
    exact h n hn
  · have e1 : (List.take k (List.drop a1 l1))[n]? = none := by
      apply List.getElem?_eq_none
      rw [List.length_take]
      omega
    have e2 : (List.take k (List.drop a2 l2))[n]? = none := by
      apply List.getElem?_eq_none
      rw [List.length_take]
      omega
    rw [e1, e2]

theorem augF_chain (l : List (String × String)) (last : Option String) (base : Nat)
    (start e p : Nat) (he : e < l.length)
    (hrun : ∀ i, start ≤ i → i < e → (l.map Prod.snd)[i + 1]? = (l.map Prod.snd)[i]?)
    (hp : (augF last base l)[start]? = some p) :
    ∀ j, start + j ≤ e → (augF last base l)[start + j]? = some (p + j) := by
  intro j
  induction j with
  | zero => intro h0; simpa using hp
  | succ j ih =>
    intro hj
    have h1 : (augF last base l)[start + j]? = some (p + j) := ih (by omega)
    have hlen : start + j + 1 < (augF last base l).length := by
      rw [augF_length]
      omega
    obtain ⟨q, hq⟩ : ∃ q, (augF last base l)[start + j + 1]? = some q :=
      ⟨_, List.getElem?_eq_getElem hlen⟩
    have hcons := augF_consecutive l last base (start + j) (p + j) q h1 hq
      (hrun (start + j) (by omega) (by omega))
    rw [show start + (j + 1) = start + j + 1 by omega, hq, hcons,
      show p + j + 1 = p + (j + 1) by omega]

/-- C3: for every Word Sequence with an equal-length Speaker Sequence, the
Augmented Word Sequence produced by `add_speaker_information` has length
`len(tokens) + 3 * B`, where `B` counts the positions whose speaker differs
from the immediately preceding word's speaker (position 0 always counts,
starting from `last_speaker = None`). -/
theorem spec_c3_length_invariant (tokens speakers : List String)
    (hlen : tokens.length = speakers.length) :
    (add_speaker_information tokens speakers).1.length =
      tokens.length + 3 * boundaryCount none speakers := by
  rw [add_speaker_information_eq]
  have hsnd : (tokens.zip speakers).map Prod.snd = speakers :=
    List.map_snd_zip tokens speakers (le_of_eq hlen.symm)
  have hzlen : (tokens.zip speakers).length = tokens.length := by
    rw [List.length_zip, hlen, Nat.min_self]
  simp only
  rw [augTokens_length, hsnd, hzlen]

/-- Witness for C3 at a concrete input (spec scenario 8). -/
theorem spec_c3_length_invariant_witness :
    (["Hi", "Bob"] : List String).length = (["A", "B"] : List String).length ∧
    (add_speaker_information ["Hi", "Bob"] ["A", "B"]).1.length =
      (["Hi", "Bob"] : List String).length + 3 * boundaryCount none ["A", "B"] :=
  ⟨rfl, spec_c3_length_invariant ["Hi", "Bob"] ["A", "B"] rfl⟩

/-- C4: with an equal-length non-empty Speaker Sequence, the forward map
covers every original position, the backward map undoes it
(`BackwardMap[ForwardMap[i]] = i`), and the forward map is strictly
increasing. -/
theorem spec_c4_inverse_and_monotone (tokens speakers : List String)
    (hlen : tokens.length = speakers.length) (hne : speakers ≠ []) :
    (add_speaker_information tokens speakers).2.1.length = tokens.length ∧
    (∀ i p : Nat, (add_speaker_information tokens speakers).2.1[i]? = some p →
      (add_speaker_information tokens speakers).2.2[p]? = some (some i)) ∧
    List.Pairwise (· < ·) (add_speaker_information tokens speakers).2.1 := by
  rw [add_speaker_information_eq]
  simp only
  refine ⟨?_, ?_, ?_⟩
  · rw [augF_length, List.length_zip, hlen, Nat.min_self]
  · intro i p hp
    have h := augF_inverse (tokens.zip speakers) none 0 0 i p hp
    simpa using h.2
  · exact augF_pairwise (tokens.zip speakers) none 0

/-- Witness for C4 at a concrete input. -/
theorem spec_c4_inverse_and_monotone_witness :
    (["Hi", "Bob"] : List String).length = (["A", "B"] : List String).length ∧
    (["A", "B"] : List String) ≠ [] ∧
    List.Pairwise (· < ·) (add_speaker_information ["Hi", "Bob"] ["A", "B"]).2.1 :=
  ⟨rfl, by decide,
    (spec_c4_inverse_and_monotone ["Hi", "Bob"] ["A", "B"] rfl (by decide)).2.2⟩

/-- C2 (as stated) is false: with the valid input
`tokens = ["Hi","Bob"]`, `speakers = ["A","B"]` (non-empty, equal length)
and the valid span `[0, 1]` (`0 ≤ 0 ≤ 1 < 2`), the internal assertion of
`_tokenize` fails, because the augmented slice picks up the inserted
speaker tokens of the boundary inside the span. -/
theorem spec_c2_counterexample :
    (["Hi", "Bob"] : List String).length = (["A", "B"] : List String).length ∧
    (["A", "B"] : List String) ≠ [] ∧
    1 < (["Hi", "Bob"] : List String).length ∧
    assertSpan ["Hi", "Bob"] (add_speaker_information ["Hi", "Bob"] ["A", "B"]).1
      (add_speaker_information ["Hi", "Bob"] ["A", "B"]).2.1 (0, 1) =
      .error .assertionError :=
  ⟨rfl, by decide, by decide, by rfl⟩

/-- C2 (amended): under the stated preconditions *and* the additional
condition that no speaker-change boundary falls strictly inside the span
(every position `start < i ≤ end` has the same speaker as its predecessor),
the internal consistency assertion of `_tokenize` holds: the original word
slice equals the augmented slice at the mapped positions, and the
assertion-failure branch is unreachable. -/
theorem spec_c2_assertion_holds (tokens speakers : List String)
    (hlen : tokens.length = speakers.length) (hne : speakers ≠ [])
    (start e : Nat) (hse : start ≤ e) (he : e < tokens.length)
    (hrun : ∀ i, start ≤ i → i < e → speakers[i + 1]? = speakers[i]?) :
    assertSpan tokens (add_speaker_information tokens speakers).1
      (add_speaker_information tokens speakers).2.1 (start, e) = .ok () := by
  rw [add_speaker_information_eq]
  simp only
  have hsnd : (tokens.zip speakers).map Prod.snd = speakers :=
    List.map_snd_zip tokens speakers (le_of_eq hlen.symm)
  have hfst : (tokens.zip speakers).map Prod.fst = tokens :=
    List.map_fst_zip tokens speakers (le_of_eq hlen)
  have hllen : (tokens.zip speakers).length = tokens.length := by
    rw [List.length_zip, hlen, Nat.min_self]
  have hFlen : (augF none 0 (tokens.zip speakers)).length = tokens.length := by
    rw [augF_length, hllen]
  have hstart : start < (augF none 0 (tokens.zip speakers)).length := by omega
  have hee : e < (augF none 0 (tokens.zip speakers)).length := by omega
  have hp : (augF none 0 (tokens.zip speakers))[start]? =
      some (augF none 0 (tokens.zip speakers))[start] :=
    List.getElem?_eq_getElem hstart
  have hrun2 : ∀ i, start ≤ i → i < e →
      ((tokens.zip speakers).map Prod.snd)[i + 1]? =
        ((tokens.zip speakers).map Prod.snd)[i]? := by
    intro i hi1 hi2
    rw [hsnd]
    exact hrun i hi1 hi2
  have hchain := augF_chain (tokens.zip speakers) none 0 start e
    ((augF none 0 (tokens.zip speakers))[start]) (by omega) hrun2 hp
  have he2 : (augF none 0 (tokens.zip speakers))[e]? =
      some ((augF none 0 (tokens.zip speakers))[start] + (e - start)) := by
    have h := hchain (e - start) (by omega)
    rwa [show start + (e - start) = e by omega] at h
  have heq : (augF none 0 (tokens.zip speakers))[e] =
      (augF none 0 (tokens.zip speakers))[start] + (e - start) := by
    have h3 := List.getElem?_eq_getElem hee
    have h4 := he2.symm.trans h3
    exact (Option.some.inj h4).symm
  have helem : ∀ j, j < e - start + 1 →
      tokens[start + j]? =
        (augTokens none (tokens.zip speakers))[(augF none 0 (tokens.zip speakers))[start] + j]? := by
    intro j hj
    have hFj := hchain j (by omega)
    have hc := augF_content (tokens.zip speakers) none 0 (start + j)
      ((augF none 0 (tokens.zip speakers))[start] + j) hFj
    rw [Nat.sub_zero] at hc
    rw [hc, ← List.getElem?_map, hfst]
  have hslice : pySlice tokens start (e + 1) =
      pySlice (augTokens none (tokens.zip speakers))
        ((augF none 0 (tokens.zip speakers))[start])
        ((augF none 0 (tokens.zip speakers))[e] + 1) := by
    rw [heq,
      show e + 1 = start + (e - start + 1) by omega,
      show (augF none 0 (tokens.zip speakers))[start] + (e - start) + 1 =
        (augF none 0 (tokens.zip speakers))[start] + (e - start + 1) by omega]
    exact pySlice_congr tokens (augTokens none (tokens.zip speakers)) start
      ((augF none 0 (tokens.zip speakers))[start]) (e - start + 1) helem
  simp only [assertSpan]
  split
  all_goals
    first
    | rfl
    | (rename_i hx
       first
       | exact absurd hslice hx
       | exact absurd hee hx
       | exact absurd hstart hx)

/-- Witness for the amended C2 at a concrete input (spec scenario 7 extended
to a two-word single-speaker span). -/
theorem spec_c2_assertion_holds_witness :
    (["Hi", "Bob"] : List String).length = (["A", "A"] : List String).length ∧
    (["A", "A"] : List String) ≠ [] ∧
    assertSpan ["Hi", "Bob"] (add_speaker_information ["Hi", "Bob"] ["A", "A"]).1
      (add_speaker_information ["Hi", "Bob"] ["A", "A"]).2.1 (0, 1) = .ok () :=
  ⟨rfl, by decide,
    spec_c2_assertion_holds ["Hi", "Bob"] ["A", "A"] rfl (by decide) 0 1
      (by omega) (by decide)
      (fun i h1 h2 => by
        have h0 : i = 0 := by omega
        subst h0
        rfl)⟩

theorem zip_truncates {α β : Type} (t : List α) (s : List β) :
    t.zip s = (t.take s.length).zip s := by
  induction s generalizing t with
  | nil => simp
  | cons b bs ih =>
    cases t with
    | nil => simp
    | cons a as =>
      simp only [List.length_cons, List.take_succ_cons, List.zip_cons_cons]
      rw [ih as]

/-- C1 fails on the code: with the empty Speaker Sequence and a single
cluster span `[0, 0]` over `tokens = ["Hi"]`, `_tokenize` keeps the Word
Sequence unchanged but realignment indexes the *empty*
`token_to_new_token_map` (it is `[]`, not the identity), raising
`IndexError` instead of producing the encoded document. -/
theorem spec_c1_empty_speakers_indexerror :
    _tokenize unitTokenizer ["Hi"] [[(0, 0)]] [] = .error .indexError := by
  rfl

/-- C5 fails on the code: with the empty Speaker Sequence the returned
`new_token_map` (the Backward Map) is `[]`, whose length 0 differs from the
length of the Augmented Word Sequence (= the Word Sequence, length 1). -/
theorem spec_c5_backward_map_not_full :
    _tokenize unitTokenizer ["Hi"] [] [] =
      .ok { tokens := ["Hi"], input_ids := [0, 1, 2], length := 3,
            gold_clusters := [], new_token_map := [],
            subtoken_map := [none, some 0, none] } ∧
    ([] : List (Option Nat)).length ≠ (["Hi"] : List String).length :=
  ⟨rfl, by decide⟩

/-- C6: `prepare_for_encode` errors exactly when tokens, sentences and text
are all empty; otherwise a non-empty token list is used as-is, else a
non-empty sentence-grouped list is flattened (with its speaker list
correspondingly flattened), else the sentence splitter runs over the raw
text. -/
theorem spec_c6_normalization (nlp : String → List String) (e : RawExample) :
    (prepare_for_encode nlp e = .error .missingContent ↔
      (e.tokens = [] ∧ e.sentences = [] ∧ e.text = "")) ∧
    (e.tokens ≠ [] →
      prepare_for_encode nlp e =
        .ok { tokens := e.tokens, sentences := e.sentences, text := e.text,
              speakers := .untouched e.speakers }) ∧
    (e.tokens = [] → e.sentences ≠ [] →
      prepare_for_encode nlp e =
        .ok { tokens := flatten e.sentences, sentences := e.sentences,
              text := e.text,
              speakers := .flattened (flatten e.speakers) }) ∧
    (e.tokens = [] → e.sentences = [] → e.text ≠ "" →
      prepare_for_encode nlp e =
        .ok { tokens := nlp e.text, sentences := e.sentences, text := e.text,
              speakers := .untouched e.speakers }) := by
  unfold prepare_for_encode
  split_ifs with h1 h2 h3
  · exact ⟨by simp [h1], fun _ => rfl, fun hc _ => absurd hc h1,
      fun hc _ _ => absurd hc h1⟩
  · rw [ne_eq, not_not] at h1
    exact ⟨by simp [h1, h2], fun hc => absurd h1 hc, fun _ _ => rfl,
      fun _ hc _ => absurd hc h2⟩
  · rw [ne_eq, not_not] at h1
    rw [ne_eq, not_not] at h2
    exact ⟨by simp [h1, h2, h3], fun hc => absurd h1 hc, fun _ hc => absurd h2 hc,
      fun _ _ _ => rfl⟩
  · rw [ne_eq, not_not] at h1
    rw [ne_eq, not_not] at h2
    rw [ne_eq, not_not] at h3
    exact ⟨by simp [h1, h2, h3], fun hc => absurd h1 hc, fun _ hc => absurd h2 hc,
      fun _ _ hc => absurd h3 hc⟩

/-- Witness for C6 at a concrete input, exercising the sentences branch. -/
theorem spec_c6_normalization_witness :
    prepare_for_encode (fun _ => [])
      { tokens := [], sentences := [["a", "b"], ["c"]], text := "",
        speakers := [["S1", "S1"], ["S2"]] } =
      .ok { tokens := ["a", "b", "c"], sentences := [["a", "b"], ["c"]],
            text := "", speakers := .flattened ["S1", "S1", "S2"] } :=
  (spec_c6_normalization (fun _ => [])
    { tokens := [], sentences := [["a", "b"], ["c"]], text := "",
      speakers := [["S1", "S1"], ["S2"]] }).2.2.1 rfl (by decide)

/-- C7: for a sampler whose collator is neither supported variant,
`create_batches` stops with the `NotImplementedError` before any cache
lookup, sampler iteration or save: its effect trace is empty. -/
theorem spec_c7_unsupported_collator {V : Type} (env : CacheEnv V)
    (sampler : Sampler V) (dataset_files cache_dir : String)
    (h : sampler.collator = .other) :
    create_batches env sampler dataset_files cache_dir =
      (.error .unsupportedCollator, []) := by
  simp [create_batches, batchKey, collatorSuffix, h]

/-- Witness for C7 at a concrete input. -/
theorem spec_c7_unsupported_collator_witness :
    natSamplerOther.collator = Collator.other ∧
    create_batches natCacheEnv natSamplerOther "files" "cache" =
      (.error .unsupportedCollator, []) :=
  ⟨rfl, spec_c7_unsupported_collator natCacheEnv natSamplerOther "files" "cache" rfl⟩

/-- C8: for a fixed document source the pre-fingerprint key strings of the
two supported collator variants differ (distinct literal discriminators),
and — the fingerprint being collision-free — the derived cache paths
differ as well. -/
theorem spec_c8_key_sensitivity (hash : String → String)
    (dataset_files cache_dir : String) :
    batchKey hash dataset_files .leftOvers ≠ batchKey hash dataset_files .pad ∧
    (Function.Injective hash →
      cachePathOf hash cache_dir dataset_files .leftOvers ≠
        cachePathOf hash cache_dir dataset_files .pad) := by
  have hkey : batchKey hash dataset_files .leftOvers ≠
      batchKey hash dataset_files .pad := by
    intro hcontra
    simp only [batchKey, collatorSuffix, Option.map_some'] at hcontra
    have h2 := Option.some.inj hcontra
    have h3 := congrArg String.length h2
    rw [String.length_append, String.length_append] at h3
    have h4 : ("_segment_collator" : String).length = 17 := rfl
    have h5 : ("_longformer_collator" : String).length = 20 := rfl
    omega
  refine ⟨hkey, fun hinj hcontra => hkey ?_⟩
  simp only [cachePathOf, batchKey, collatorSuffix, Option.map_some'] at hcontra ⊢
  have h2 := Option.some.inj hcontra
  have hd := congrArg String.data h2
  rw [String.data_append, String.data_append, String.data_append,
    String.data_append] at hd
  have h5 := List.append_cancel_left hd
  have h7 := hinj (String.ext h5)
  rw [h7]

/-- Witness for C8, instantiating the fingerprint with the (injective)
identity function. -/
theorem spec_c8_key_sensitivity_witness :
    cachePathOf id "cache" "train.jsonl" .leftOvers ≠
      cachePathOf id "cache" "train.jsonl" .pad :=
  (spec_c8_key_sensitivity id "train.jsonl" "cache").2 Function.injective_id

/-- C9: with a supported collator, a successful load is returned unchanged
(only a load effect); any other persistence error propagates (only a load
effect); only the not-found case triggers driving the sampler, collecting
each batch's fields in batch order into per-field lists, saving and
returning the collection. -/
theorem spec_c9_cache_protocol {V : Type} (env : CacheEnv V)
    (sampler : Sampler V) (dataset_files cache_dir : String) (key : String)
    (hkey : batchKey env.hash dataset_files sampler.collator = some key) :
    (∀ b, env.load (cache_dir ++ "/" ++ env.hash key) = .found b →
      create_batches env sampler dataset_files cache_dir =
        (.ok b, [.load (cache_dir ++ "/" ++ env.hash key)])) ∧
    (∀ msg, env.load (cache_dir ++ "/" ++ env.hash key) = .otherError msg →
      create_batches env sampler dataset_files cache_dir =
        (.error (.persistFailure msg),
         [.load (cache_dir ++ "/" ++ env.hash key)])) ∧
    (env.load (cache_dir ++ "/" ++ env.hash key) = .notFound →
      create_batches env sampler dataset_files cache_dir =
        (.ok (collectBatches sampler.batches),
         [.load (cache_dir ++ "/" ++ env.hash key), .iterateSampler,
          .save (cache_dir ++ "/" ++ env.hash key)
            (collectBatches sampler.batches)])) ∧
    (∀ k, dictGet (collectBatches sampler.batches) k =
      fieldValues k sampler.batches) := by
  refine ⟨?_, ?_, ?_, fun k => dictGet_collectBatches sampler.batches k⟩
  · intro b hb
    simp [create_batches, hkey, hb]
  · intro msg hm
    simp [create_batches, hkey, hm]
  · intro hn
    simp [create_batches, hkey, hn]

/-- Witness for C9 at a concrete input (empty disk, so the not-found branch
computes, saves and returns the collected batches). -/
theorem spec_c9_cache_protocol_witness :
    batchKey natCacheEnv.hash "files" Collator.leftOvers =
      some ("h" ++ "_segment_collator") ∧
    create_batches natCacheEnv natSamplerLeftOvers "files" "cache" =
      (.ok (collectBatches natSamplerLeftOvers.batches),
       [.load ("cache" ++ "/" ++ "h"), .iterateSampler,
        .save ("cache" ++ "/" ++ "h") (collectBatches natSamplerLeftOvers.batches)]) :=
  ⟨rfl,
    (spec_c9_cache_protocol natCacheEnv natSamplerLeftOvers "files" "cache"
      ("h" ++ "_segment_collator") rfl).2.2.1 rfl⟩

/-- C10: a non-empty Speaker Sequence strictly shorter than the token list
silently truncates the document: the outputs equal those for the first
`len(speakers)` tokens, the Forward Map covers only `len(speakers)`
positions, and every Backward Map entry points below `len(speakers)`. -/
theorem spec_c10_truncation (tokens speakers : List String)
    (hne : speakers ≠ []) (hlt : speakers.length < tokens.length) :
    add_speaker_information tokens speakers =
      add_speaker_information (tokens.take speakers.length) speakers ∧
    (add_speaker_information tokens speakers).2.1.length = speakers.length ∧
    (∀ o ∈ (add_speaker_information tokens speakers).2.2, ∀ i : Nat,
      o = some i → i < speakers.length) := by
  refine ⟨?_, ?_, ?_⟩
  · rw [add_speaker_information_eq, add_speaker_information_eq, ← zip_truncates]
  · rw [add_speaker_information_eq]
    simp only
    rw [augF_length, List.length_zip]
    omega
  · intro o ho i hoi
    rw [add_speaker_information_eq] at ho
    simp only at ho
    have h := augB_entry_bound (tokens.zip speakers) none 0 o ho i hoi
    rw [List.length_zip] at h
    omega

/-- Witness for C10 at a concrete input: three tokens, two speakers. -/
theorem spec_c10_truncation_witness :
    (["A", "B"] : List String) ≠ [] ∧
    (["A", "B"] : List String).length < (["a", "b", "c"] : List String).length ∧
    (add_speaker_information ["a", "b", "c"] ["A", "B"]).2.1.length =
      (["A", "B"] : List String).length :=
  ⟨by decide, by decide,
    (spec_c10_truncation ["a", "b", "c"] ["A", "B"] (by decide) (by decide)).2.1⟩

end CorefDataset
